import Mathlib

/-!
Verification of the terminal Julia-set animator (`src/color.rs`, `src/main.rs`).

Numerics are modelled at their ideal mathematical value: rational-only
computations (HSV quantisation, escape counting, the renderer) are embedded
over `ℚ`, while computations using `powf`/`sqrt` (the shade ramp, the
animator) are embedded over `ℝ` and `ℂ`.  Machine integers (`u64`, `u8`,
casts) are embedded as `ℕ`/`ℤ` with explicit `% 2 ^ w` wrapping where the
source wraps.
-/

namespace Fractal

/-! ### PRNG (`main.rs`, `next_f`)

`fn next_f(r: &mut u64) -> f64` — xorshift64* with a final multiply and a
mapping of the top 53 bits to `[-1, 1]`.  The state update and the sample
are split into `nextState` and `sample`: the source first stores the new
state `x` and then derives the sample from that new state. -/

/-- State transition of the xorshift64* generator (`main.rs` lines 62-66):
`x ^= x >> 12; x ^= x << 25; x ^= x >> 27`.  The left shift wraps in `u64`,
hence the `% 2 ^ 64`. -/
def nextState (r : ℕ) : ℕ :=
  let x1 := r ^^^ (r >>> 12)
  let x2 := (x1 ^^^ (x1 <<< 25)) % 2 ^ 64
  x2 ^^^ (x2 >>> 27)

/-- The fixed odd multiplier `0x2545F4914F6CDD1D` of xorshift64*. -/
def rngMult : ℕ := 0x2545F4914F6CDD1D

/-- Sample derived from a (new) generator state (`main.rs` lines 67-69):
`v = x.wrapping_mul(0x2545F4914F6CDD1D)`, then
`((v >> 11) as f64) * (1.0 / (1u64 << 53) as f64) * 2.0 - 1.0`.
All the floating-point operations involved are exact (the operands are
dyadic rationals of small exponent), so the value is an exact rational. -/
def sample (x : ℕ) : ℚ :=
  (((x * rngMult % 2 ^ 64) >>> 11 : ℕ) : ℚ) * (1 / 2 ^ 53) * 2 - 1

/-- The fixed seed `0x9e3779b97f4a7c15` (`main.rs` line 59). -/
def rngSeed : ℕ := 0x9e3779b97f4a7c15

/-- Modelled from the spec (§6): state update of the recipe — shift-right 12,
XOR; shift-left 25, XOR; shift-right 27, XOR — in 64-bit arithmetic. -/
def nextStateSpec (r : ℕ) : ℕ :=
  let a := r ^^^ r / 2 ^ 12
  let b := (a ^^^ a * 2 ^ 25) % 2 ^ 64
  b ^^^ b / 2 ^ 27

/-- Modelled from the spec (§6): output of the recipe — multiply by the fixed
odd 64-bit constant, take the top 53 bits, scale to `[0,1)`, remap to
`[-1,1]`. -/
def sampleSpec (x : ℕ) : ℚ :=
  ((x * rngMult % 2 ^ 64 / 2 ^ 11 : ℕ) : ℚ) / 2 ^ 53 * 2 - 1

lemma sample_eq_sampleSpec (x : ℕ) : sample x = sampleSpec x := by
  unfold sample sampleSpec
  rw [Nat.shiftRight_eq_div_pow]
  ring

lemma nextState_eq_nextStateSpec (r : ℕ) : nextState r = nextStateSpec r := by
  unfold nextState nextStateSpec
  simp only [Nat.shiftRight_eq_div_pow, Nat.shiftLeft_eq]

/-- The top-53-bits value is below `2 ^ 53`. -/
lemma top53_lt (x : ℕ) : (x * rngMult % 2 ^ 64) >>> 11 < 2 ^ 53 := by
  rw [Nat.shiftRight_eq_div_pow]
  have h : x * rngMult % 2 ^ 64 < 2 ^ 64 := Nat.mod_lt _ (by norm_num)
  omega

/-- Every emitted sample lies in `[-1, 1]` (in fact in `[-1, 1)`). -/
lemma sample_mem_Icc (x : ℕ) : -1 ≤ sample x ∧ sample x ≤ 1 := by
  unfold sample
  set t : ℕ := (x * rngMult % 2 ^ 64) >>> 11 with ht
  have h1 : (t : ℚ) ≤ 2 ^ 53 := by
    have := top53_lt x
    rw [← ht] at this
    exact_mod_cast this.le
  have h0 : (0 : ℚ) ≤ (t : ℚ) := Nat.cast_nonneg t
  constructor
  · nlinarith
  · nlinarith

/-- C8: the pseudo-random generator follows the spec's bit recipe exactly
(xorshift by 12/25/27 with 64-bit wrap, multiply by the fixed odd constant,
top 53 bits scaled to `[0,1)` and remapped), and every sample it emits lies
in `[-1, 1]`. -/
theorem rng_recipe_and_range :
    (∀ r : ℕ, nextState r = nextStateSpec r) ∧
    (∀ x : ℕ, sample x = sampleSpec x) ∧
    (∀ x : ℕ, -1 ≤ sample x ∧ sample x ≤ 1) :=
  ⟨nextState_eq_nextStateSpec, sample_eq_sampleSpec, sample_mem_Icc⟩

/-! ### Color quantisation (`color.rs`, `hsv_to_256`)

All arithmetic in `hsv_to_256` is exact-rational-expressible (`%`, `abs`,
`round`, `clamp`, casts), so it is embedded over `ℚ`. -/

/-- Truncation toward zero, the rounding used by Rust float-to-int `as`
casts and by the quotient of the float `%` operator. -/
def qtrunc (q : ℚ) : ℤ := if 0 ≤ q then ⌊q⌋ else ⌈q⌉

/-- The Rust `f64` `%` operator: remainder with the sign of the dividend. -/
def rustRem (a b : ℚ) : ℚ := a - b * (qtrunc (a / b) : ℚ)

/-- Rust `f64::round`: round half away from zero. -/
def rustRound (q : ℚ) : ℤ := if 0 ≤ q then ⌊q + 1 / 2⌋ else ⌈q - 1 / 2⌉

/-- Saturating float-to-`u8` `as` cast (of an already-integral value). -/
def toU8 (z : ℤ) : ℕ := (min 255 (max 0 z)).toNat

/-- Rust `f64::clamp(lo, hi)`: `self.max(lo).min(hi)` for non-NaN input
(stated over any linear order; used at `ℚ` and at `ℝ`). -/
def fclamp {α : Type} [LinearOrder α] (q lo hi : α) : α := min hi (max lo q)

/-- `hsv_to_256` (`color.rs` lines 5-27).  The final byte values are formed
in `u8` arithmetic, hence the `% 2 ^ 8` (the bounds proved below show the
wrap never fires). -/
def hsv_to_256 (h_deg s v : ℚ) : ℕ :=
  let h := rustRem (rustRem h_deg 360 + 360) 360 / 60
  let c := v * s
  let x := c * (1 - |rustRem h 2 - 1|)
  let rgb1 : ℚ × ℚ × ℚ :=
    if qtrunc h = 0 then (c, x, 0)
    else if qtrunc h = 1 then (x, c, 0)
    else if qtrunc h = 2 then (0, c, x)
    else if qtrunc h = 3 then (0, x, c)
    else if qtrunc h = 4 then (x, 0, c)
    else (c, 0, x)
  let m := v - c
  let r := rgb1.1 + m
  let g := rgb1.2.1 + m
  let b := rgb1.2.2 + m
  if s < 2 / 25 then
    let gray := toU8 (rustRound (v * 23))
    (232 + min gray 23) % 2 ^ 8
  else
    let ri := toU8 (rustRound (fclamp (r * 5) 0 5))
    let gi := toU8 (rustRound (fclamp (g * 5) 0 5))
    let bi := toU8 (rustRound (fclamp (b * 5) 0 5))
    (16 + 36 * ri + 6 * gi + bi) % 2 ^ 8

/-- A channel quantised through clamp-to-`[0,5]`, round, cast is at most 5. -/
lemma chan_le (q : ℚ) : toU8 (rustRound (fclamp q 0 5)) ≤ 5 := by
  have h0 : (0 : ℚ) ≤ fclamp q 0 5 :=
    le_min (by norm_num) (le_max_left 0 q)
  have h5 : fclamp q 0 5 ≤ 5 := min_le_left 5 _
  have hr : rustRound (fclamp q 0 5) ≤ 5 := by
    unfold rustRound
    rw [if_pos h0]
    have : ⌊fclamp q 0 5 + 1 / 2⌋ ≤ ⌊(11 : ℚ) / 2⌋ :=
      Int.floor_le_floor (by linarith)
    have h11 : ⌊(11 : ℚ) / 2⌋ = 5 := by norm_num [Int.floor_eq_iff]
    omega
  unfold toU8
  omega

lemma cube_mem (a b c : ℕ) (ha : a ≤ 5) (hb : b ≤ 5) (hc : c ≤ 5) :
    16 ≤ (16 + 36 * a + 6 * b + c) % 2 ^ 8 ∧
      (16 + 36 * a + 6 * b + c) % 2 ^ 8 ≤ 231 := by
  have h : (16 + 36 * a + 6 * b + c) % 2 ^ 8 = 16 + 36 * a + 6 * b + c :=
    Nat.mod_eq_of_lt (by omega)
  omega

lemma gray_mem (g : ℕ) :
    232 ≤ (232 + min g 23) % 2 ^ 8 ∧ (232 + min g 23) % 2 ^ 8 ≤ 255 := by
  have hm : min g 23 ≤ 23 := min_le_right g 23
  have h : (232 + min g 23) % 2 ^ 8 = 232 + min g 23 :=
    Nat.mod_eq_of_lt (by omega)
  omega

/-- C4: for saturation at least 0.08 (in particular 0.9, value 1.0) and hue
in `[0, 360)`, `hsv_to_256` lands in the 6×6×6 cube `[16, 231]`; for
saturation below 0.08 and value in `[0, 1]` it lands in the grayscale ramp
`[232, 255]`. -/
theorem hsv_to_256_range :
    (∀ h s v : ℚ, 0 ≤ h → h < 360 → 2 / 25 ≤ s →
      16 ≤ hsv_to_256 h s v ∧ hsv_to_256 h s v ≤ 231) ∧
    (∀ h s v : ℚ, s < 2 / 25 → 0 ≤ v → v ≤ 1 →
      232 ≤ hsv_to_256 h s v ∧ hsv_to_256 h s v ≤ 255) := by
  constructor
  · intro h s v _ _ hs
    unfold hsv_to_256
    rw [if_neg (not_lt.mpr hs)]
    exact cube_mem _ _ _ (chan_le _) (chan_le _) (chan_le _)
  · intro h s v hs _ _
    unfold hsv_to_256
    rw [if_pos hs]
    exact gray_mem _

/-- Witness for `hsv_to_256_range`: the colored contract at
`(h, s, v) = (0, 0.9, 1)` and the grayscale contract at
`(h, s, v) = (0, 0, 1/2)`. -/
theorem hsv_to_256_range_witness :
    (16 ≤ hsv_to_256 0 (9 / 10) 1 ∧ hsv_to_256 0 (9 / 10) 1 ≤ 231) ∧
      (232 ≤ hsv_to_256 0 0 (1 / 2) ∧ hsv_to_256 0 0 (1 / 2) ≤ 255) :=
  ⟨hsv_to_256_range.1 0 (9 / 10) 1 (by norm_num) (by norm_num) (by norm_num),
    hsv_to_256_range.2 0 0 (1 / 2) (by norm_num) (by norm_num) (by norm_num)⟩

/-! ### Escape iteration (`main.rs` lines 135-140)

`num_complex::Complex64` values are embedded as pairs of rationals; the
iteration `z = z * z + c` and the test `z.norm_sqr() <= 4.0` are exact
polynomial arithmetic on the components. -/

/-- Complex multiplication on component pairs. -/
def cmul (a b : ℚ × ℚ) : ℚ × ℚ :=
  (a.1 * b.1 - a.2 * b.2, a.1 * b.2 + a.2 * b.1)

/-- Complex addition on component pairs. -/
def cadd (a b : ℚ × ℚ) : ℚ × ℚ := (a.1 + b.1, a.2 + b.2)

/-- `Complex64::norm_sqr`: `re * re + im * im`. -/
def normSq (z : ℚ × ℚ) : ℚ := z.1 * z.1 + z.2 * z.2

/-- One Julia step `z * z + c` (`main.rs` line 138). -/
def escapeStep (z c : ℚ × ℚ) : ℚ × ℚ := cadd (cmul z z) c

/-- The escape loop (`main.rs` lines 136-140): starting from `z`, iterate
`z = z * z + c` while `norm_sqr z ≤ 4` and fuel remains; the result is the
number of steps taken. -/
def escapeCount (c z : ℚ × ℚ) : ℕ → ℕ
  | 0 => 0
  | fuel + 1 =>
    if normSq z ≤ 4 then escapeCount c (escapeStep z c) fuel + 1 else 0

/-- The orbit of `z` under `z * z + c`. -/
def orbit (c z : ℚ × ℚ) : ℕ → ℚ × ℚ
  | 0 => z
  | k + 1 => escapeStep (orbit c z k) c

lemma escapeCount_succ (c z : ℚ × ℚ) (m : ℕ) :
    escapeCount c z (m + 1) =
      if normSq z ≤ 4 then escapeCount c (escapeStep z c) m + 1 else 0 := rfl

lemma orbit_shift (c z : ℚ × ℚ) (j : ℕ) :
    orbit c (escapeStep z c) j = orbit c z (j + 1) := by
  induction j with
  | zero => rfl
  | succ j ih => simp only [orbit, ih]

/-- The starting point `(3, 0)` of the corner test is already escaped. -/
lemma corner_start_escaped : ¬ normSq ((3 : ℚ), (0 : ℚ)) ≤ 4 := by
  norm_num [normSq]

/-- `escape_count((-0.8, 0.156), (3.0, 0.0), 120) = 0`. -/
lemma escape_at_corner : escapeCount (-4 / 5, 39 / 250) (3, 0) 120 = 0 := by
  rw [show (120 : ℕ) = 119 + 1 from rfl, escapeCount_succ,
    if_neg corner_start_escaped]

/-- The escape count is capped by the fuel. -/
lemma escapeCount_le (c z : ℚ × ℚ) (m : ℕ) : escapeCount c z m ≤ m := by
  induction m generalizing z with
  | zero => exact Nat.le_refl 0
  | succ m ih =>
    unfold escapeCount
    split
    · exact Nat.succ_le_succ (ih _)
    · exact Nat.zero_le _

/-- Every orbit point strictly before the escape count is still bounded. -/
lemma escapeCount_bounded (c z : ℚ × ℚ) (m : ℕ) :
    ∀ j, j < escapeCount c z m → normSq (orbit c z j) ≤ 4 := by
  induction m generalizing z with
  | zero => intro j hj; exact absurd hj (Nat.not_lt_zero j)
  | succ m ih =>
    intro j hj
    unfold escapeCount at hj
    by_cases hz : normSq z ≤ 4
    · rw [if_pos hz] at hj
      cases j with
      | zero => exact hz
      | succ j =>
        have := ih (escapeStep z c) j (Nat.lt_of_succ_lt_succ hj)
        rwa [orbit_shift] at this
    · rw [if_neg hz] at hj
      exact absurd hj (Nat.not_lt_zero j)

/-- If the loop stopped early, the orbit point at the escape count has
squared norm above 4. -/
lemma escapeCount_escapes (c z : ℚ × ℚ) (m : ℕ)
    (h : escapeCount c z m < m) :
    4 < normSq (orbit c z (escapeCount c z m)) := by
  induction m generalizing z with
  | zero => exact absurd h (Nat.not_lt_zero _)
  | succ m ih =>
    by_cases hz : normSq z ≤ 4
    · have he : escapeCount c z (m + 1)
          = escapeCount c (escapeStep z c) m + 1 := by
        rw [escapeCount_succ, if_pos hz]
      rw [he] at h ⊢
      have := ih (escapeStep z c) (Nat.lt_of_succ_lt_succ h)
      rwa [orbit_shift] at this
    · have he : escapeCount c z (m + 1) = 0 := by
        rw [escapeCount_succ, if_neg hz]
      rw [he]
      exact lt_of_not_le hz

/-- C6: the escape count is the least number of steps of `z ← z² + c` after
which `normSq z` exceeds 4, capped at the iteration budget (hence always in
`[0, max_iters]`); at `c = (-0.8, 0.156)`, `z = (3, 0)`, budget 120, it is
0 because the start is already outside radius 2. -/
theorem escapeCount_least_capped :
    (∀ c z : ℚ × ℚ, ∀ m : ℕ,
      escapeCount c z m ≤ m ∧
      (∀ j, j < escapeCount c z m → normSq (orbit c z j) ≤ 4) ∧
      (escapeCount c z m < m → 4 < normSq (orbit c z (escapeCount c z m)))) ∧
    escapeCount (-4 / 5, 39 / 250) (3, 0) 120 = 0 := by
  exact ⟨fun c z m => ⟨escapeCount_le c z m, escapeCount_bounded c z m,
    escapeCount_escapes c z m⟩, escape_at_corner⟩

/-- Witness for the hypotheses of `escapeCount_least_capped`: the loop at
`c = (-0.8, 0.156)` from `z = (3, 0)` stops strictly before the budget, and
the orbit point where it stops has escaped. -/
theorem escapeCount_least_capped_witness :
    4 < normSq (orbit (-4 / 5, 39 / 250) (3, 0)
      (escapeCount (-4 / 5, 39 / 250) (3, 0) 120)) :=
  (escapeCount_least_capped.1 (-4 / 5, 39 / 250) (3, 0) 120).2.2
    (by simp [escape_at_corner])

/-! ### Shade ramp (`color.rs`, `SHADES` and `shade`)

`shade` applies `powf(0.85)`, scales by the last ramp index, clamps, and
truncates with `as usize`.  The nonnegative-input behaviour is embedded
over `ℝ` (`shadeIdx`); full `f64` behaviour, NaN and infinities included,
is embedded on the type `F64` below (`shadeF`). -/

/-- The shade ramp (`color.rs` line 2). -/
def SHADES : List Char := [' ', '.', ':', '-', '=', '+', '*', 'o', 'O', '#', '█']

lemma SHADES_length : SHADES.length = 11 := rfl

/-- `(SHADES.len() - 1) as f64`, the scale factor and clamp bound of
`shade`. -/
def rampTop : ℝ := ((SHADES.length - 1 : ℕ) : ℝ)

lemma rampTop_eq : rampTop = 10 := by
  norm_num [rampTop, SHADES_length]

/-- Index computation of `shade` (`color.rs` lines 32-34) for a nonnegative
finite input: `(norm.powf(0.85) * 10.0).clamp(0.0, 10.0) as usize`.  The
`as usize` cast truncates toward zero and saturates below at 0, which on
the clamped nonnegative value is exactly `Nat.floor`. -/
noncomputable def shadeIdx (norm : ℝ) : ℕ :=
  ⌊fclamp (norm ^ (0.85 : ℝ) * rampTop) 0 rampTop⌋₊

/-- C1: the shade index is monotone non-decreasing on `[0, 1)`. -/
theorem shadeIdx_mono (a b : ℝ) (ha : 0 ≤ a) (hab : a ≤ b) (_ : b < 1) :
    shadeIdx a ≤ shadeIdx b := by
  apply Nat.floor_le_floor
  unfold fclamp
  have hpow : a ^ (0.85 : ℝ) ≤ b ^ (0.85 : ℝ) :=
    Real.rpow_le_rpow ha hab (by norm_num)
  have hmul : a ^ (0.85 : ℝ) * rampTop ≤ b ^ (0.85 : ℝ) * rampTop :=
    mul_le_mul_of_nonneg_right hpow (by rw [rampTop_eq]; norm_num)
  exact min_le_min (le_refl _) (max_le_max (le_refl _) hmul)

/-- Witness for `shadeIdx_mono` at `a = 1/4`, `b = 1/2`. -/
theorem shadeIdx_mono_witness : shadeIdx (1 / 4) ≤ shadeIdx (1 / 2) :=
  shadeIdx_mono (1 / 4) (1 / 2) (by norm_num) (by norm_num) (by norm_num)

/-- Modelled from the spec (§4.3, the sentence under test in C5): gamma,
scale by the last ramp index, round to the NEAREST index, clamp to the
ramp bounds. -/
noncomputable def shadeIdxSpec (norm : ℝ) : ℕ :=
  (min 10 (max 0 (round (norm ^ (0.85 : ℝ) * 10)))).toNat

/-- On `[0, 1)` the gamma-scaled value lies in `[0, 10)`. -/
lemma gammaScale_mem (norm : ℝ) (h0 : 0 ≤ norm) (h1 : norm < 1) :
    0 ≤ norm ^ (0.85 : ℝ) * 10 ∧ norm ^ (0.85 : ℝ) * 10 < 10 := by
  have hn : 0 ≤ norm ^ (0.85 : ℝ) := Real.rpow_nonneg h0 _
  have hl : norm ^ (0.85 : ℝ) < 1 := Real.rpow_lt_one h0 h1 (by norm_num)
  constructor
  · nlinarith
  · nlinarith

/-- C5 counterexample: at `norm = 0.95` (inside `[0, 1)`) the code's index
is 9 (truncation) while the round-to-nearest index the claim describes is
10. -/
theorem shadeIdx_round_counterexample :
    (0 ≤ (19 / 20 : ℝ) ∧ (19 / 20 : ℝ) < 1) ∧
      shadeIdx (19 / 20) = 9 ∧ shadeIdxSpec (19 / 20) = 10 := by
  have hlt : (19 / 20 : ℝ) < (19 / 20 : ℝ) ^ (0.85 : ℝ) := by
    have := Real.rpow_lt_rpow_of_exponent_gt
      (x := (19 / 20 : ℝ)) (y := 1) (z := (0.85 : ℝ))
      (by norm_num) (by norm_num) (by norm_num)
    rwa [Real.rpow_one] at this
  have hup : (19 / 20 : ℝ) ^ (0.85 : ℝ) < 1 :=
    Real.rpow_lt_one (by norm_num) (by norm_num) (by norm_num)
  have hv1 : (19 / 2 : ℝ) < (19 / 20 : ℝ) ^ (0.85 : ℝ) * 10 := by nlinarith
  have hv2 : (19 / 20 : ℝ) ^ (0.85 : ℝ) * 10 < 10 := by nlinarith
  refine ⟨⟨by norm_num, by norm_num⟩, ?_, ?_⟩
  · unfold shadeIdx fclamp
    rw [rampTop_eq]
    have hmax : max (0 : ℝ) ((19 / 20 : ℝ) ^ (0.85 : ℝ) * 10)
        = (19 / 20 : ℝ) ^ (0.85 : ℝ) * 10 := max_eq_right (by nlinarith)
    have hmin : min (10 : ℝ) ((19 / 20 : ℝ) ^ (0.85 : ℝ) * 10)
        = (19 / 20 : ℝ) ^ (0.85 : ℝ) * 10 := min_eq_right (by nlinarith)
    rw [hmax, hmin]
    rw [Nat.floor_eq_iff (by positivity)]
    constructor
    · push_cast; nlinarith
    · push_cast; nlinarith
  · unfold shadeIdxSpec
    have hr : round ((19 / 20 : ℝ) ^ (0.85 : ℝ) * 10) = 10 := by
      rw [round_eq, Int.floor_eq_iff]
      constructor
      · push_cast; nlinarith
      · push_cast; nlinarith
    rw [hr]
    rfl

/-- C5 amended: on `[0, 1)` the shade index is the gamma-scaled value
TRUNCATED toward zero (floored), and the clamp never alters it: the index
stays within the ramp bounds `[0, 10]`. -/
theorem shadeIdx_floor (norm : ℝ) (h0 : 0 ≤ norm) (h1 : norm < 1) :
    shadeIdx norm = ⌊norm ^ (0.85 : ℝ) * 10⌋₊ ∧ shadeIdx norm ≤ 10 := by
  obtain ⟨hv0, hv10⟩ := gammaScale_mem norm h0 h1
  have heq : shadeIdx norm = ⌊norm ^ (0.85 : ℝ) * 10⌋₊ := by
    unfold shadeIdx fclamp
    rw [rampTop_eq, max_eq_right hv0, min_eq_right hv10.le]
  refine ⟨heq, ?_⟩
  rw [heq]
  have : ⌊norm ^ (0.85 : ℝ) * 10⌋₊ < 10 := by
    rw [Nat.floor_lt hv0]
    exact_mod_cast hv10
  omega

/-- Witness for `shadeIdx_floor` at `norm = 1/2`. -/
theorem shadeIdx_floor_witness :
    shadeIdx (1 / 2) = ⌊(1 / 2 : ℝ) ^ (0.85 : ℝ) * 10⌋₊ ∧
      shadeIdx (1 / 2) ≤ 10 :=
  shadeIdx_floor (1 / 2) (by norm_num) (by norm_num)

/-! ### Total `f64` model of `shade` (for the safety claim)

`F64` covers every `f64` input class relevant to `shade`: NaN, the two
infinities, and finite values (as exact reals). -/

/-- An `f64` value: NaN, `+∞`, `-∞`, or a finite real. -/
inductive F64 : Type where
  | nan : F64
  | inf : F64
  | ninf : F64
  | fin : ℝ → F64

/-- `f64::powf` at the fixed non-integer exponent 0.85, IEEE-754 `pow`
semantics: NaN propagates; `(±∞)^0.85 = +∞`; a negative finite base with a
non-integer exponent yields NaN; a nonnegative base yields the real
power. -/
noncomputable def powf85 : F64 → F64
  | .nan => .nan
  | .inf => .inf
  | .ninf => .inf
  | .fin x => if x < 0 then .nan else .fin (x ^ (0.85 : ℝ))

/-- Multiplication by the positive finite scale `(SHADES.len() - 1) as f64`:
NaN propagates and infinities keep their sign. -/
noncomputable def mulRampTop : F64 → F64
  | .nan => .nan
  | .inf => .inf
  | .ninf => .ninf
  | .fin x => .fin (x * rampTop)

/-- `f64::clamp(0.0, 10.0)`: NaN propagates, `+∞` saturates to the upper
bound, `-∞` to the lower, finite values clamp. -/
noncomputable def clampRamp : F64 → F64
  | .nan => .nan
  | .inf => .fin rampTop
  | .ninf => .fin 0
  | .fin x => .fin (fclamp x 0 rampTop)

/-- `as usize`: a saturating cast — NaN and everything at or below 0 go to
0, `+∞` and everything at or above `usize::MAX` go to `usize::MAX`, finite
values truncate toward zero. -/
noncomputable def asUsize : F64 → ℕ
  | .nan => 0
  | .inf => 2 ^ 64 - 1
  | .ninf => 0
  | .fin x => min (2 ^ 64 - 1) ⌊x⌋₊

/-- The full index computation of `shade` (`color.rs` lines 32-34) on any
`f64` input. -/
noncomputable def shadeF (norm : F64) : ℕ :=
  asUsize (clampRamp (mulRampTop (powf85 norm)))

/-- `shade` itself (`color.rs` line 35): the ramp lookup.  The default is a
sentinel character that is not in the ramp, so membership of the result in
`SHADES` proves that the lookup index is in bounds. -/
noncomputable def shade (norm : F64) : Char := SHADES.getD (shadeF norm) '?'

/-- On a finite clamped value the cast is a plain floor. -/
lemma asUsize_fin_of_le (x : ℝ) (hx : x ≤ 10) :
    asUsize (.fin x) = ⌊x⌋₊ := by
  simp only [asUsize]
  have h1 : ⌊x⌋₊ ≤ ⌊(10 : ℝ)⌋₊ := Nat.floor_le_floor hx
  have h2 : ⌊(10 : ℝ)⌋₊ = 10 := by norm_num
  omega

/-- The clamped index of a finite base is at most 10. -/
lemma shadeF_fin_le (x : ℝ) : shadeF (.fin x) ≤ 10 := by
  simp only [shadeF, powf85]
  by_cases hx : x < 0
  · rw [if_pos hx]
    simp [mulRampTop, clampRamp, asUsize]
  · rw [if_neg hx]
    simp only [mulRampTop, clampRamp]
    have hcl : fclamp (x ^ (0.85 : ℝ) * rampTop) 0 rampTop ≤ 10 := by
      rw [rampTop_eq]
      exact min_le_left _ _
    rw [asUsize_fin_of_le _ hcl]
    have := Nat.floor_le_floor hcl
    have h2 : ⌊(10 : ℝ)⌋₊ = 10 := by norm_num
    omega

/-- C10: `shade` is total and in-bounds for every `f64` input — NaN,
infinities, negatives, out-of-range values included: the computed index
stays within the 11-entry ramp and the returned character is always a ramp
character. -/
theorem shade_total_inbounds :
    ∀ norm : F64, shadeF norm < SHADES.length ∧ shade norm ∈ SHADES := by
  have hidx : ∀ norm : F64, shadeF norm < SHADES.length := by
    intro norm
    rw [SHADES_length]
    cases norm with
    | nan => simp [shadeF, powf85, mulRampTop, clampRamp, asUsize]
    | inf =>
      have h : shadeF .inf = ⌊rampTop⌋₊ := by
        simp only [shadeF, powf85, mulRampTop, clampRamp]
        exact asUsize_fin_of_le rampTop (by norm_num [rampTop_eq])
      rw [h, rampTop_eq]
      norm_num
    | ninf =>
      have h : shadeF .ninf = ⌊rampTop⌋₊ := by
        simp only [shadeF, powf85, mulRampTop, clampRamp]
        exact asUsize_fin_of_le rampTop (by norm_num [rampTop_eq])
      rw [h, rampTop_eq]
      norm_num
    | fin x =>
      have := shadeF_fin_le x
      omega
  intro norm
  refine ⟨hidx norm, ?_⟩
  unfold shade
  rw [List.getD_eq_getElem _ _ (hidx norm)]
  exact List.getElem_mem _

/-! ### Frame renderer (`main.rs` lines 130-162)

The byte stream of one row is modelled as a list of tokens: color-set
directives (`ESC[38;5;{c}m`), resets (`ESC[0m`), and glyphs.  A cell is
`none` for an interior (non-escaping) point and `some (color, glyph)` for
an escaping one; `cellAt` computes the cell exactly as the source's inner
loop does. -/

/-- One emitted token of a row's byte stream. -/
inductive Tok : Type where
  | setColor : ℕ → Tok
  | reset : Tok
  | glyph : Char → Tok
  deriving DecidableEq

/-- One loop iteration of the renderer (`main.rs` lines 141-156), acting on
the carried `prev_color` state: an interior cell resets the active color if
any and prints a blank; an escaping cell emits a color-set directive only
when its color differs from the active one, then prints its glyph. -/
def stepCell (p : Option ℕ) (cell : Option (ℕ × Char)) :
    List Tok × Option ℕ :=
  match cell with
  | none => (if p.isSome then [.reset, .glyph ' '] else [.glyph ' '], none)
  | some (col, g) =>
    if p = some col then ([.glyph g], p)
    else ([.setColor col, .glyph g], some col)

/-- The renderer's inner loop over the cells of a row. -/
def processCells (cells : List (Option (ℕ × Char))) (p : Option ℕ) :
    List Tok × Option ℕ :=
  match cells with
  | [] => ([], p)
  | cell :: rest =>
    let s := stepCell p cell
    let r := processCells rest s.2
    (s.1 ++ r.1, r.2)

/-- One full row (`main.rs` lines 130-160): `prev_color` starts as `None`,
and a final reset is emitted when a color is still active at the row's
end. -/
def renderRow (f : ℕ → Option (ℕ × Char)) (width : ℕ) : List Tok :=
  let r := processCells ((List.range width).map f) none
  r.1 ++ (if r.2.isSome then [.reset] else [])

/-- Modelled from the spec (§4.4): the naive strategy that emits a color
directive before every glyph — a reset before each blank, a color-set
before each colored glyph. -/
def stepCellNaive (cell : Option (ℕ × Char)) : List Tok × Option ℕ :=
  match cell with
  | none => ([.reset, .glyph ' '], none)
  | some (col, g) => ([.setColor col, .glyph g], some col)

/-- The naive strategy's loop over the cells of a row. -/
def processCellsNaive (cells : List (Option (ℕ × Char))) (p : Option ℕ) :
    List Tok × Option ℕ :=
  match cells with
  | [] => ([], p)
  | cell :: rest =>
    let s := stepCellNaive cell
    let r := processCellsNaive rest s.2
    (s.1 ++ r.1, r.2)

/-- A naive full row, with the same end-of-row reset convention. -/
def naiveRow (f : ℕ → Option (ℕ × Char)) (width : ℕ) : List Tok :=
  let r := processCellsNaive ((List.range width).map f) none
  r.1 ++ (if r.2.isSome then [.reset] else [])

/-- The visual result of a token stream: the sequence of
`(glyph, effective color)` pairs, given the color active on entry. -/
def visFrom (p : Option ℕ) : List Tok → List (Char × Option ℕ)
  | [] => []
  | .setColor c :: ts => visFrom (some c) ts
  | .reset :: ts => visFrom none ts
  | .glyph ch :: ts => (ch, p) :: visFrom p ts

/-- The number of color-set/reset directives in a token stream. -/
def dirCount : List Tok → ℕ
  | [] => 0
  | .glyph _ :: ts => dirCount ts
  | .setColor _ :: ts => dirCount ts + 1
  | .reset :: ts => dirCount ts + 1

/-- The number of color-set directives in a token stream. -/
def setCount : List Tok → ℕ
  | [] => 0
  | .setColor _ :: ts => setCount ts + 1
  | .reset :: ts => setCount ts
  | .glyph _ :: ts => setCount ts

/-- The cell the source computes for grid position `(x, y)` (`main.rs`
lines 131-156): viewport-mapped coordinates, the escape count, then the
HSV color index and the shade glyph for escaping cells, `none` for
interior ones. -/
noncomputable def cellAt (c : ℚ × ℚ) (w h m : ℕ) (y x : ℕ) :
    Option (ℕ × Char) :=
  let im : ℚ := (y : ℚ) / (h : ℚ) * 2 - 1
  let re : ℚ := (x : ℚ) / (w : ℚ) * 3 - 3 / 2
  let iters := escapeCount c (re, im) m
  if m ≤ iters then none
  else
    let norm : ℚ := (iters : ℚ) / (m : ℚ)
    some (hsv_to_256 (norm * 360) (9 / 10) 1, shade (.fin (norm : ℝ)))

lemma stepCell_snd (p : Option ℕ) (cell : Option (ℕ × Char)) :
    (stepCell p cell).2 = (stepCellNaive cell).2 := by
  match cell with
  | none => simp [stepCell, stepCellNaive]
  | some (col, g) =>
    simp only [stepCell, stepCellNaive]
    split
    · rename_i h
      rw [h]
    · rfl

lemma processCells_snd (cells : List (Option (ℕ × Char))) (p : Option ℕ) :
    (processCells cells p).2 = (processCellsNaive cells p).2 := by
  induction cells generalizing p with
  | nil => rfl
  | cons cell rest ih =>
    simp only [processCells, processCellsNaive]
    rw [stepCell_snd, ih]


lemma stepCell_none_none_fst : (stepCell none none).1 = [Tok.glyph ' '] := rfl

lemma stepCell_some_none_fst (q : ℕ) :
    (stepCell (some q) none).1 = [Tok.reset, Tok.glyph ' '] := rfl

lemma stepCell_none_none_snd : (stepCell none none).2 = none := rfl

lemma stepCell_some_none_snd (q : ℕ) : (stepCell (some q) none).2 = none := rfl

lemma stepCell_same (col : ℕ) (g : Char) :
    stepCell (some col) (some (col, g)) = ([Tok.glyph g], some col) := by
  simp [stepCell]

lemma stepCell_diff (p : Option ℕ) (col : ℕ) (g : Char) (h : p ≠ some col) :
    stepCell p (some (col, g)) = ([Tok.setColor col, Tok.glyph g], some col) := by
  simp [stepCell, h]

lemma stepCellNaive_none :
    stepCellNaive none = ([Tok.reset, Tok.glyph ' '], none) := rfl

lemma stepCellNaive_some (col : ℕ) (g : Char) :
    stepCellNaive (some (col, g)) = ([Tok.setColor col, Tok.glyph g], some col) :=
  rfl

/-- The visual content of a row of cells: blank on background for interior
cells, the glyph on its color for escaping cells. -/
def rowSem (cells : List (Option (ℕ × Char))) : List (Char × Option ℕ) :=
  cells.map (fun cell =>
    match cell with
    | none => (' ', none)
    | some (col, g) => (g, some col))

lemma vis_processCells (cells : List (Option (ℕ × Char))) :
    ∀ (p : Option ℕ) (rest : List Tok),
      visFrom p ((processCells cells p).1 ++ rest)
        = rowSem cells ++ visFrom (processCells cells p).2 rest := by
  induction cells with
  | nil => intro p rest; simp [processCells, rowSem]
  | cons cell rest0 ih =>
    intro p rest
    simp only [processCells, rowSem, List.map_cons, List.append_assoc,
      List.cons_append]
    match cell with
    | none =>
      match p with
      | none =>
        rw [stepCell_none_none_fst, stepCell_none_none_snd]
        simp only [List.cons_append, List.nil_append, List.append_eq,
          visFrom]
        rw [ih]
        rfl
      | some q =>
        rw [stepCell_some_none_fst, stepCell_some_none_snd]
        simp only [List.cons_append, List.nil_append, List.append_eq,
          visFrom]
        rw [ih]
        rfl
    | some (col, g) =>
      by_cases hp : p = some col
      · subst hp
        rw [stepCell_same]
        simp only [List.cons_append, List.nil_append, List.append_eq,
          visFrom]
        rw [ih]
        rfl
      · rw [stepCell_diff p col g hp]
        simp only [List.cons_append, List.nil_append, List.append_eq,
          visFrom]
        rw [ih]
        rfl

lemma vis_processCellsNaive (cells : List (Option (ℕ × Char))) :
    ∀ (p : Option ℕ) (rest : List Tok),
      visFrom p ((processCellsNaive cells p).1 ++ rest)
        = rowSem cells ++ visFrom (processCellsNaive cells p).2 rest := by
  induction cells with
  | nil => intro p rest; simp [processCellsNaive, rowSem]
  | cons cell rest0 ih =>
    intro p rest
    simp only [processCellsNaive, rowSem, List.map_cons, List.append_assoc,
      List.cons_append]
    match cell with
    | none =>
      rw [stepCellNaive_none]
      simp only [List.cons_append, List.nil_append, List.append_eq,
        visFrom]
      rw [ih]
      rfl
    | some (col, g) =>
      rw [stepCellNaive_some]
      simp only [List.cons_append, List.nil_append, List.append_eq,
        visFrom]
      rw [ih]
      rfl


lemma dirCount_append (a b : List Tok) :
    dirCount (a ++ b) = dirCount a + dirCount b := by
  induction a with
  | nil => simp [dirCount]
  | cons t ts ih =>
    match t with
    | .setColor c =>
      simp only [List.cons_append, dirCount, List.append_eq, ih]
      omega
    | .reset =>
      simp only [List.cons_append, dirCount, List.append_eq, ih]
      omega
    | .glyph ch =>
      simp only [List.cons_append, dirCount, List.append_eq, ih]

lemma setCount_append (a b : List Tok) :
    setCount (a ++ b) = setCount a + setCount b := by
  induction a with
  | nil => simp [setCount]
  | cons t ts ih =>
    match t with
    | .setColor c =>
      simp only [List.cons_append, setCount, List.append_eq, ih]
      omega
    | .reset =>
      simp only [List.cons_append, setCount, List.append_eq, ih]
    | .glyph ch =>
      simp only [List.cons_append, setCount, List.append_eq, ih]

lemma processCells_dirCount (cells : List (Option (ℕ × Char)))
    (p : Option ℕ) :
    dirCount (processCells cells p).1
      ≤ dirCount (processCellsNaive cells p).1 := by
  induction cells generalizing p with
  | nil => exact Nat.le_refl _
  | cons cell rest ih =>
    simp only [processCells, processCellsNaive, dirCount_append]
    rw [stepCell_snd]
    have hstep : dirCount (stepCell p cell).1
        ≤ dirCount (stepCellNaive cell).1 := by
      match cell with
      | none =>
        match p with
        | none =>
          rw [stepCell_none_none_fst, stepCellNaive_none]
          simp [dirCount]
        | some q =>
          rw [stepCell_some_none_fst, stepCellNaive_none]
      | some (col, g) =>
        by_cases hp : p = some col
        · subst hp
          rw [stepCell_same, stepCellNaive_some]
          simp [dirCount]
        · rw [stepCell_diff p col g hp, stepCellNaive_some]
    have htail := ih (stepCellNaive cell).2
    omega

/-- Processing a run of same-colored cells with that color already active
emits no color-set directive and keeps the color active. -/
lemma processCells_run_active (col : ℕ) :
    ∀ cells : List (Option (ℕ × Char)),
      (∀ cell ∈ cells, Option.map Prod.fst cell = some col) →
      setCount (processCells cells (some col)).1 = 0 ∧
        (processCells cells (some col)).2 = some col := by
  intro cells
  induction cells with
  | nil => intro _; exact ⟨rfl, rfl⟩
  | cons cell rest ih =>
    intro hall
    have hhead := hall cell (List.mem_cons_self _ _)
    obtain ⟨g, rfl⟩ : ∃ g, cell = some (col, g) := by
      cases cell with
      | none => exact absurd hhead (by simp)
      | some pr =>
        obtain ⟨c2, g⟩ := pr
        simp only [Option.map_some', Option.some_inj] at hhead
        exact ⟨g, by rw [hhead]⟩
    have hrest := ih (fun c hc => hall c (List.mem_cons_of_mem _ hc))
    simp only [processCells, stepCell_same, setCount_append]
    refine ⟨?_, hrest.2⟩
    rw [hrest.1]
    rfl

/-- Processing a nonempty run of same-colored cells from a state where that
color is not active emits exactly one color-set directive. -/
lemma processCells_run (col : ℕ)
    (cells : List (Option (ℕ × Char))) (p : Option ℕ)
    (hne : cells ≠ [])
    (hall : ∀ cell ∈ cells, Option.map Prod.fst cell = some col)
    (hp : p ≠ some col) :
    setCount (processCells cells p).1 = 1 ∧
      (processCells cells p).2 = some col := by
  match cells with
  | [] => exact absurd rfl hne
  | cell :: rest =>
    have hhead := hall cell (List.mem_cons_self _ _)
    obtain ⟨g, rfl⟩ : ∃ g, cell = some (col, g) := by
      cases cell with
      | none => exact absurd hhead (by simp)
      | some pr =>
        obtain ⟨c2, g⟩ := pr
        simp only [Option.map_some', Option.some_inj] at hhead
        exact ⟨g, by rw [hhead]⟩
    have hrest := processCells_run_active col rest
      (fun c hc => hall c (List.mem_cons_of_mem _ hc))
    simp only [processCells, stepCell_diff p col g hp, setCount_append]
    refine ⟨?_, hrest.2⟩
    rw [hrest.1]
    rfl

/-- C2: the renderer's run-length color compression is visually identical
to the naive emit-a-directive-before-every-glyph strategy on every grid,
row, and parameter; it never emits more directives than the naive
strategy; and a row of `n ≥ 1` cells that all map to one color index emits
exactly one color-set directive for that run. -/
theorem render_rle_faithful :
    (∀ (c : ℚ × ℚ) (w h m y width : ℕ),
      visFrom none (renderRow (cellAt c w h m y) width)
        = visFrom none (naiveRow (cellAt c w h m y) width)) ∧
    (∀ (c : ℚ × ℚ) (w h m y width : ℕ),
      dirCount (renderRow (cellAt c w h m y) width)
        ≤ dirCount (naiveRow (cellAt c w h m y) width)) ∧
    (∀ (f : ℕ → Option (ℕ × Char)) (col n : ℕ), 1 ≤ n →
      (∀ x, x < n → Option.map Prod.fst (f x) = some col) →
      setCount (renderRow f n) = 1) := by
  have hvis : ∀ (f : ℕ → Option (ℕ × Char)) (width : ℕ),
      visFrom none (renderRow f width) = visFrom none (naiveRow f width) := by
    intro f width
    unfold renderRow naiveRow
    rw [vis_processCells, vis_processCellsNaive, processCells_snd]
  have hdir : ∀ (f : ℕ → Option (ℕ × Char)) (width : ℕ),
      dirCount (renderRow f width) ≤ dirCount (naiveRow f width) := by
    intro f width
    unfold renderRow naiveRow
    rw [dirCount_append, dirCount_append, processCells_snd]
    have hmain := processCells_dirCount ((List.range width).map f) none
    omega
  refine ⟨fun c w h m y width => hvis _ _,
    fun c w h m y width => hdir _ _, ?_⟩
  intro f col n hn hall
  unfold renderRow
  rw [setCount_append]
  have hne : (List.range n).map f ≠ [] := by
    intro hnil
    have hlen := congrArg List.length hnil
    simp at hlen
    omega
  have hcells : ∀ cell ∈ (List.range n).map f,
      Option.map Prod.fst cell = some col := by
    intro cell hc
    obtain ⟨x, hx, rfl⟩ := List.mem_map.mp hc
    exact hall x (List.mem_range.mp hx)
  obtain ⟨h1, _⟩ := processCells_run col ((List.range n).map f) none hne
    hcells (by simp)
  rw [h1]
  have hend : setCount (if (processCells ((List.range n).map f) none).2.isSome
      then [Tok.reset] else []) = 0 := by
    split <;> rfl
  rw [hend]

/-- Witness for `render_rle_faithful`: a ten-cell single-color row emits
exactly one color-set directive. -/
theorem render_rle_faithful_witness :
    setCount (renderRow (fun _ => some (5, 'x')) 10) = 1 :=
  render_rle_faithful.2.2 (fun _ => some (5, 'x')) 5 10 (by norm_num)
    (fun x _ => rfl)

/-! ### Parameter animator (`main.rs` lines 47-126)

The wandering-offset state (`offset`, `vel`, `rng`) is embedded as a
structure over `ℂ` and `ℕ`; one loop body's worth of animation updates
(lines 105-126) is the pure step `advance`. -/

/-- The animation state: `offset`, `vel` (`main.rs` lines 56-57) and the
PRNG state (line 59). -/
structure AState : Type where
  off : ℂ
  vel : ℂ
  rng : ℕ

/-- `base_c = (-0.8, 0.156)` (`main.rs` line 49). -/
noncomputable def baseC : ℂ := ⟨-0.8, 0.156⟩

/-- `radius = 0.40` (`main.rs` line 51). -/
noncomputable def radius : ℝ := 0.40

/-- `accel_strength = 1.2` (`main.rs` line 52). -/
noncomputable def accelStrength : ℝ := 1.2

/-- `damping = 0.85` (`main.rs` line 53). -/
noncomputable def damping : ℝ := 0.85

/-- The initial state: zero offset, zero velocity, the fixed seed. -/
noncomputable def initState : AState := ⟨0, 0, rngSeed⟩

/-- The soft-boundary pull-back (`main.rs` lines 116-117):
`pull = (rlen - radius) / rlen; offset -= offset * pull * 0.6`. -/
noncomputable def pullback (o : ℂ) : ℂ :=
  o - o * (((Complex.abs o - radius) / Complex.abs o : ℝ) : ℂ) * ((0.6 : ℝ) : ℂ)

/-- The outward-velocity damping (`main.rs` lines 119-120):
`vel -= offset * (vel.re * offset.re + vel.im * offset.im)
  / (offset.norm_sqr() + 1e-12) * 0.5`, with `offset` the already
pulled-back value. -/
noncomputable def dampVel (v o : ℂ) : ℂ :=
  v - o * ((v.re * o.re + v.im * o.im : ℝ) : ℂ)
    / ((Complex.normSq o + 1e-12 : ℝ) : ℂ) * ((0.5 : ℝ) : ℂ)

/-- The soft-boundary block (`main.rs` lines 114-121): when the offset
magnitude exceeds the radius, pull the offset inward and damp the outward
velocity component against the new offset. -/
noncomputable def boundary (o v : ℂ) : ℂ × ℂ :=
  if radius < Complex.abs o then
    let o2 := pullback o
    (o2, dampVel v o2)
  else (o, v)

/-- The final velocity clamp (`main.rs` lines 123-125): halve the velocity
when its magnitude exceeds `radius * 2.0`. -/
noncomputable def clampVel (v : ℂ) : ℂ :=
  if radius * 2 < Complex.abs v then v * ((0.5 : ℝ) : ℂ) else v

/-- The random acceleration (`main.rs` lines 107-109): two fresh PRNG draws
scaled by `accel_strength`. -/
noncomputable def accelOf (rng : ℕ) : ℂ :=
  ⟨(sample (nextState rng) : ℝ) * accelStrength,
    (sample (nextState (nextState rng)) : ℝ) * accelStrength⟩

/-- The damped-velocity update (`main.rs` line 111):
`vel = vel * (1.0 - damping * dt_c) + acc * dt_c`. -/
noncomputable def velUpdate (s : AState) (dtc : ℝ) : ℂ :=
  s.vel * ((1 - damping * dtc : ℝ) : ℂ) + accelOf s.rng * ((dtc : ℝ) : ℂ)

/-- One full animation update (`main.rs` lines 105-126): clamp `dt`, draw
the acceleration, update velocity and offset, apply the soft boundary and
the final velocity clamp; the effective parameter is `base_c + offset`
(line 126). -/
noncomputable def advance (s : AState) (dt : ℝ) : AState × ℂ :=
  let dtc := min dt (0.1 : ℝ)
  let vel1 := velUpdate s dtc
  let off1 := s.off + vel1 * ((dtc : ℝ) : ℂ)
  let ov := boundary off1 vel1
  (⟨ov.1, clampVel ov.2, nextState (nextState s.rng)⟩, baseC + ov.1)

/-- Running the animator over a sequence of `dt` values, collecting each
state and effective parameter. -/
noncomputable def runAnim (s : AState) : List ℝ → List (AState × ℂ)
  | [] => []
  | dt :: rest =>
    let r := advance s dt
    r :: runAnim r.1 rest

/-- The states reachable from the initial state under nonnegative `dt`
steps. -/
inductive Reachable : AState → Prop where
  | init : Reachable initState
  | step (s : AState) (dt : ℝ) (hdt : 0 ≤ dt) (hs : Reachable s) :
      Reachable (advance s dt).1

/-- The pulled-back offset is the original scaled by the real factor
`1 - pull * 0.6`. -/
lemma pullback_abs (o : ℂ) :
    Complex.abs (pullback o)
      = Complex.abs o
          * |1 - (Complex.abs o - radius) / Complex.abs o * 0.6| := by
  have heq : pullback o
      = o * (((1 - (Complex.abs o - radius) / Complex.abs o * 0.6 : ℝ)) : ℂ) := by
    unfold pullback
    push_cast
    ring
  rw [heq, map_mul, Complex.abs_ofReal]

/-- C9: the soft-boundary pull-back is a strict contraction whenever the
offset magnitude exceeds the radius; at magnitude 0.5 with radius 0.4 one
pull-back lands exactly at magnitude 0.44, strictly closer to the 0.4
ball. -/
theorem pullback_contracts :
    (∀ o : ℂ, radius < Complex.abs o →
      Complex.abs (pullback o) < Complex.abs o) ∧
    (∀ o : ℂ, Complex.abs o = 1 / 2 →
      Complex.abs (pullback o) = 11 / 25) := by
  have hrad : radius = 0.40 := rfl
  constructor
  · intro o hro
    have hr0 : (0 : ℝ) < Complex.abs o := by
      rw [hrad] at hro
      linarith
    have hp0 : 0 < (Complex.abs o - radius) / Complex.abs o :=
      div_pos (by linarith) hr0
    have hp1 : (Complex.abs o - radius) / Complex.abs o < 1 := by
      rw [div_lt_one hr0]
      rw [hrad] at hro ⊢
      linarith
    rw [pullback_abs]
    have habs : |1 - (Complex.abs o - radius) / Complex.abs o * 0.6|
        = 1 - (Complex.abs o - radius) / Complex.abs o * 0.6 :=
      abs_of_pos (by linarith)
    rw [habs]
    nlinarith
  · intro o ho
    rw [pullback_abs, ho, hrad]
    rw [show |1 - (1 / 2 - (0.40 : ℝ)) / (1 / 2) * 0.6| = 22 / 25 by
      rw [abs_of_pos] <;> norm_num]
    norm_num

/-- Witness for `pullback_contracts`: strict contraction at `o = 1`
(magnitude 1 > 0.4), and the exact value at `o = 1/2` (magnitude 1/2). -/
theorem pullback_contracts_witness :
    Complex.abs (pullback 1) < Complex.abs 1 ∧
      Complex.abs (pullback (((1 / 2 : ℝ)) : ℂ)) = 11 / 25 :=
  ⟨pullback_contracts.1 1 (by
      rw [map_one]
      rw [show radius = 0.40 from rfl]
      norm_num),
    pullback_contracts.2 _ (by
      rw [Complex.abs_ofReal]
      norm_num)⟩

lemma abs_le_abs_of_normSq_le {a b : ℂ}
    (h : Complex.normSq a ≤ Complex.normSq b) :
    Complex.abs a ≤ Complex.abs b := by
  rw [Complex.abs_apply, Complex.abs_apply]
  exact Real.sqrt_le_sqrt h

/-- The damping factored as a real scalar times the offset. -/
lemma dampVel_eq (v o : ℂ) :
    dampVel v o = v - (((v.re * o.re + v.im * o.im)
      / (Complex.normSq o + 1e-12) * 0.5 : ℝ) : ℂ) * o := by
  unfold dampVel
  push_cast
  ring

/-- Subtracting half the outward velocity projection never increases the
squared speed: the epsilon-guarded coefficient keeps the subtracted
multiple below twice the projection. -/
lemma dampVel_normSq_le (v o : ℂ) :
    Complex.normSq (dampVel v o) ≤ Complex.normSq v := by
  rw [dampVel_eq]
  set u : ℝ := v.re * o.re + v.im * o.im with hu
  set d : ℝ := Complex.normSq o + 1e-12 with hdd
  have hd : 0 < d := by
    have h1 := Complex.normSq_nonneg o
    have h2 : (0 : ℝ) < 1e-12 := by norm_num
    rw [hdd]
    linarith
  set k : ℝ := u / d * 0.5 with hk
  clear_value u d k
  have hkd : k * d = u * 0.5 := by
    rw [hk]
    field_simp
  have hexp : Complex.normSq (v - ((k : ℝ) : ℂ) * o)
      = Complex.normSq v - 2 * k * u + k ^ 2 * Complex.normSq o := by
    simp only [Complex.normSq_apply, Complex.sub_re, Complex.sub_im,
      Complex.mul_re, Complex.mul_im, Complex.ofReal_re, Complex.ofReal_im,
      hu]
    ring
  rw [hexp]
  have hno : Complex.normSq o = d - 1e-12 := by
    rw [hdd]
    ring
  rw [hno]
  have hu2 : u = 2 * (k * d) := by linarith
  have key : 2 * k * u - k ^ 2 * (d - 1e-12)
      = 3 * (k ^ 2 * d) + k ^ 2 * 1e-12 := by
    rw [hu2]
    ring
  have hkd0 : 0 ≤ k ^ 2 * d := mul_nonneg (sq_nonneg k) hd.le
  have hk0 : 0 ≤ k ^ 2 := sq_nonneg k
  linarith

lemma dampVel_abs_le (v o : ℂ) :
    Complex.abs (dampVel v o) ≤ Complex.abs v :=
  abs_le_abs_of_normSq_le (dampVel_normSq_le v o)

/-- The soft-boundary block never increases the speed. -/
lemma boundary_vel_le (o v : ℂ) :
    Complex.abs (boundary o v).2 ≤ Complex.abs v := by
  unfold boundary
  split
  · exact dampVel_abs_le v (pullback o)
  · exact le_refl _

/-- The final clamp caps any pre-clamp speed of at most 0.97 down to at
most `2 × radius = 0.8`. -/
lemma clampVel_le (v : ℂ) (h : Complex.abs v ≤ 0.97) :
    Complex.abs (clampVel v) ≤ 0.8 := by
  unfold clampVel
  split
  · rw [map_mul, Complex.abs_ofReal,
      show |(0.5 : ℝ)| = 0.5 by norm_num]
    linarith
  · rename_i hle
    push_neg at hle
    rw [show radius = (0.40 : ℝ) from rfl] at hle
    norm_num at hle
    linarith

lemma sample_real_abs_le (x : ℕ) : |((sample x : ℚ) : ℝ)| ≤ 1 := by
  have h := sample_mem_Icc x
  rw [abs_le]
  constructor
  · exact_mod_cast h.1
  · exact_mod_cast h.2

/-- The random acceleration has magnitude at most 1.7 (each component is
bounded by `accel_strength = 1.2`). -/
lemma accelOf_le (r : ℕ) : Complex.abs (accelOf r) ≤ 1.7 := by
  have h1 := abs_le.mp (sample_real_abs_le (nextState r))
  have h2 := abs_le.mp (sample_real_abs_le (nextState (nextState r)))
  have hsq : Complex.normSq (accelOf r) ≤ 2.89 := by
    unfold accelOf
    rw [Complex.normSq_mk, show accelStrength = (1.2 : ℝ) from rfl]
    nlinarith [h1.1, h1.2, h2.1, h2.2]
  rw [Complex.abs_apply]
  calc Real.sqrt (Complex.normSq (accelOf r))
      ≤ Real.sqrt 2.89 := Real.sqrt_le_sqrt hsq
    _ = 1.7 := by
        rw [show (2.89 : ℝ) = 1.7 ^ 2 by norm_num]
        exact Real.sqrt_sq (by norm_num)

/-- One damped-velocity update from a clamped state stays below 0.97. -/
lemma velUpdate_le (s : AState) (dtc : ℝ) (h0 : 0 ≤ dtc) (h1 : dtc ≤ 0.1)
    (hv : Complex.abs s.vel ≤ 0.8) :
    Complex.abs (velUpdate s dtc) ≤ 0.97 := by
  unfold velUpdate
  have htri := Complex.abs.add_le
    (s.vel * ((1 - damping * dtc : ℝ) : ℂ))
    (accelOf s.rng * ((dtc : ℝ) : ℂ))
  rw [map_mul, map_mul, Complex.abs_ofReal, Complex.abs_ofReal] at htri
  have hdamp : |1 - damping * dtc| ≤ 1 := by
    rw [show damping = (0.85 : ℝ) from rfl, abs_le]
    constructor <;> nlinarith
  have hdtc : |dtc| = dtc := abs_of_nonneg h0
  rw [hdtc] at htri
  have t1 : Complex.abs s.vel * |1 - damping * dtc| ≤ 0.8 * 1 :=
    mul_le_mul hv hdamp (abs_nonneg _) (by norm_num)
  have t2 : Complex.abs (accelOf s.rng) * dtc ≤ 1.7 * 0.1 :=
    mul_le_mul (accelOf_le s.rng) h1 h0 (by norm_num)
  refine le_trans htri ?_
  linarith

/-- One full `advance` step preserves the velocity clamp. -/
lemma advance_vel_le (s : AState) (dt : ℝ) (hdt : 0 ≤ dt)
    (hv : Complex.abs s.vel ≤ 0.8) :
    Complex.abs (advance s dt).1.vel ≤ 0.8 := by
  have heq : (advance s dt).1.vel
      = clampVel (boundary
          (s.off + velUpdate s (min dt 0.1) * ((min dt (0.1 : ℝ) : ℝ) : ℂ))
          (velUpdate s (min dt 0.1))).2 := rfl
  rw [heq]
  apply clampVel_le
  refine le_trans (boundary_vel_le _ _) ?_
  exact velUpdate_le s _ (le_min hdt (by norm_num)) (min_le_right _ _) hv

/-- C3: along every run from the initial state under nonnegative `dt`
steps, the velocity magnitude after each full update (soft boundary and
final clamp included) stays at most `2 × radius`. -/
theorem velocity_invariant (s : AState) (h : Reachable s) :
    Complex.abs s.vel ≤ 2 * radius := by
  rw [show 2 * radius = (0.8 : ℝ) by
    rw [show radius = (0.40 : ℝ) from rfl]
    norm_num]
  induction h with
  | init =>
    rw [show initState.vel = 0 from rfl, map_zero]
    norm_num
  | step s dt hdt hs ih => exact advance_vel_le s dt hdt ih

/-- Witness for `velocity_invariant` at the initial state. -/
theorem velocity_invariant_witness :
    Complex.abs initState.vel ≤ 2 * radius :=
  velocity_invariant initState Reachable.init

/-- C7: the animation is deterministic — equal seeds/states and equal `dt`
sequences give bit-identical state and parameter sequences — and the PRNG
state after a step is a function of the previous PRNG state only, never of
`dt`, the offset, or the velocity. -/
theorem animation_deterministic :
    (∀ (s₁ s₂ : AState) (dts₁ dts₂ : List ℝ),
      s₁ = s₂ → dts₁ = dts₂ → runAnim s₁ dts₁ = runAnim s₂ dts₂) ∧
    (∀ (s₁ s₂ : AState) (dt₁ dt₂ : ℝ), s₁.rng = s₂.rng →
      (advance s₁ dt₁).1.rng = (advance s₂ dt₂).1.rng) := by
  constructor
  · intro s₁ s₂ d₁ d₂ hs hd
    rw [hs, hd]
  · intro s₁ s₂ dt₁ dt₂ h
    have e : ∀ (s : AState) (dt : ℝ),
        (advance s dt).1.rng = nextState (nextState s.rng) :=
      fun s dt => rfl
    rw [e, e, h]

/-- Witness for `animation_deterministic`: two identically-seeded runs over
the `dt` sequence `[0.016, 0.016, 0.016]` coincide. -/
theorem animation_deterministic_witness :
    runAnim initState [0.016, 0.016, 0.016]
      = runAnim initState [0.016, 0.016, 0.016] :=
  animation_deterministic.1 initState initState _ _ rfl rfl

end Fractal
